import Mathlib

/-!
Verification of the perfetto repository fragment: the trace-redaction
engine (spec sections 2-8), the page-idle-checker
(`src/profiling/memory/page_idle_checker.cc`), the integration fixture
(`src/trace_redaction/trace_redaction_integration_fixture.h`) and the app
state parser (`ui/src/common/state_serialization.ts`).

All machine integers are embedded as `Nat`/`Int` with explicit reductions
modulo powers of two where the C++ semantics demands them.
-/

namespace Profiling

/-- Constant `base::kPageSize` (4 KiB pages). -/
def kPageSize : Nat := 4096

/-- Constant `kIsInRam = 1ULL << 63`. -/
def kIsInRam : Nat := 2 ^ 63

/-- Constant `kRamPhysicalPageMask = ~(~0ULL << 55)`: the low 55 bits. -/
def kRamPhysicalPageMask : Nat := 2 ^ 55 - 1

/-- C++ semantics of the expression `1 << bit_offset` appearing in
`MarkPageIdle` and `IsPageIdle`, where `1` has type `int` (32-bit signed),
with the result then converted to `uint64_t`.
For `bit_offset ≤ 30` this is `2 ^ bit_offset`.
For `bit_offset = 31` the shift yields (two's complement, every mainstream
implementation) `INT_MIN = -2^31`, whose conversion to `uint64_t` is
`2^64 - 2^31` (bits 31..63 all set).
For `bit_offset ≥ 32` the shift overflows the width of `int` and is
undefined behaviour, embedded as `none`. -/
def shift1IntToUInt64 (bit_offset : Nat) : Option Nat :=
  if bit_offset ≤ 30 then some (2 ^ bit_offset)
  else if bit_offset = 31 then some (2 ^ 64 - 2 ^ 31)
  else none

/-- Function `PageIdleChecker::MarkPageIdle`: returns the byte offset written and the
64-bit word written there (`none` when the computation of the word is
undefined behaviour).  The kernel ORs the written word into the bitmap. -/
def MarkPageIdle (phys_page_nr : Nat) : Nat × Option Nat :=
  let offset := 8 * (phys_page_nr / 64)
  let bit_offset := phys_page_nr % 64
  (offset, shift1IntToUInt64 bit_offset)

/-- Conversion `static_cast<int>` of a `uint64_t` value: truncate to the low
32 bits and reinterpret in two's complement. -/
def toInt32 (v : Nat) : Int :=
  let low : Nat := v % 2 ^ 32
  if low < 2 ^ 31 then (low : Int) else (low : Int) - 2 ^ 32

/-- Function `PageIdleChecker::IsPageIdle`, with the 64-bit word read from the bitmap
file at offset `8 * (phys_page_nr / 64)` supplied as `word` (`none` models a
failed read, returning `-1`).  Result `none` models the undefined behaviour
of `1 << bit_offset` for `bit_offset ≥ 32`. -/
def IsPageIdle (word : Option Nat) (phys_page_nr : Nat) : Option Int :=
  let bit_offset := phys_page_nr % 64
  match word with
  | none => some (-1)
  | some w =>
    match shift1IntToUInt64 bit_offset with
    | none => none
    | some mask => some (toInt32 (w &&& mask))

/-- Conversion of a 64-bit pattern to `int64_t`: truncate to the low 64
bits and reinterpret in two's complement (the implementation-defined
narrowing every mainstream implementation uses, as for `toInt32`). -/
def toInt64 (v : Nat) : Int :=
  let low : Nat := v % 2 ^ 64
  if low < 2 ^ 63 then (low : Int) else (low : Int) - 2 ^ 64

/-- Function `GetFirstPageShare` of `page_idle_checker.cc`.  Inputs are the
`uint64_t` values `addr` and `size` (below `2^64`); every intermediate
`uint64_t` expression is reduced modulo `2^64` where it can wrap: `end =
page_aligned_addr + kPageSize` wraps to 0 when `addr` lies in the last page
of the address space, and `addr + size` wraps when the allocation crosses
the end of it. -/
def GetFirstPageShare (addr size : Nat) : Nat :=
  let page_aligned_addr := (addr / kPageSize) * kPageSize
  let e := (page_aligned_addr + kPageSize) % 2 ^ 64
  if e > (addr + size) % 2 ^ 64 then
    size
  else
    kPageSize - (addr - page_aligned_addr)

/-- Function `GetLastPageShare` of `page_idle_checker.cc`; `addr + size` is
a `uint64_t` sum, reduced modulo `2^64`. -/
def GetLastPageShare (addr size : Nat) : Nat :=
  let last_page_size := (addr + size) % 2 ^ 64 % kPageSize
  if last_page_size = 0 then kPageSize else last_page_size

/-- Number of pages overlapping the allocation as computed by `OnIdlePage`:
`end_page_nr - page_nr` with `end_page_nr` rounded up, the sum `addr +
size` being a `uint64_t` expression reduced modulo `2^64`. -/
def pageCount (addr size : Nat) : Nat :=
  let page_nr := addr / kPageSize
  let end_page_nr0 := (addr + size) % 2 ^ 64 / kPageSize
  let end_page_nr :=
    if (addr + size) % 2 ^ 64 % kPageSize ≠ 0 then end_page_nr0 + 1
    else end_page_nr0
  end_page_nr - page_nr

/-- The body of the `for` loop of `PageIdleChecker::OnIdlePage`.  The
accumulator `idle_mem` is the 64-bit pattern of the `int64_t` accumulator:
`idle_mem += share` converts through `uint64_t`, so it adds the `uint64_t`
share modulo `2^64`.  `isIdle` is the oracle for `IsPageIdle` on a physical
page number (the bitmap-file read). -/
def onIdlePageStep (isIdle : Nat → Int) (addr size pages : Nat)
    (infos : List Nat) (idle_mem : Nat) (i : Nat) : Nat :=
  let v := infos.getD i 0
  if v = 0 then idle_mem
  else if v &&& kIsInRam = 0 then idle_mem
  else
    let phys_page_nr := v &&& kRamPhysicalPageMask
    if phys_page_nr = 0 then idle_mem
    else
      let idle := isIdle phys_page_nr
      if idle = -1 then idle_mem
      else if idle ≠ 0 then
        (idle_mem +
          (if i = 0 then GetFirstPageShare addr size
           else if i = pages - 1 then GetLastPageShare addr size
           else kPageSize)) % 2 ^ 64
      else idle_mem

/-- Function `PageIdleChecker::OnIdlePage`.  Here `pagemapRead` models the outcome of the
`pagemap` read (`none`, or a short read of the wrong length, yields `-1`
exactly as the `rd != virt_rd_size` check does); `isIdle` models the bitmap
read performed by `IsPageIdle`.  The accumulated 64-bit pattern is returned
as the `int64_t` value `idle_mem`. -/
def OnIdlePage (isIdle : Nat → Int) (pagemapRead : Option (List Nat))
    (addr size : Nat) : Int :=
  let pages := pageCount addr size
  match pagemapRead with
  | none => -1
  | some infos =>
    if infos.length ≠ pages then -1
    else toInt64
      ((List.range pages).foldl (onIdlePageStep isIdle addr size pages infos) 0)

/-- The share of `[addr, addr+size)` attributed to page `i` of the pages it
overlaps, as the loop of `OnIdlePage` computes it. -/
def pageShare (addr size pages i : Nat) : Nat :=
  if i = 0 then GetFirstPageShare addr size
  else if i = pages - 1 then GetLastPageShare addr size
  else kPageSize

/-- Counterexample address: the page-aligned start of the last 4-KiB page
of the 64-bit address space. -/
def cxAddr : Nat := 2 ^ 64 - 4096

/-- Counterexample pagemap read: one page, in RAM, physical page number 1. -/
def cxInfos : List Nat := [2 ^ 63 + 1]

theorem onIdlePageStep_eq_add (isIdle : Nat → Int) (addr size pages : Nat)
    (infos : List Nat) (acc : Nat) (i : Nat)
    (hram : infos.getD i 0 &&& kIsInRam ≠ 0)
    (hphys : infos.getD i 0 &&& kRamPhysicalPageMask ≠ 0)
    (hid1 : isIdle (infos.getD i 0 &&& kRamPhysicalPageMask) ≠ -1)
    (hid0 : isIdle (infos.getD i 0 &&& kRamPhysicalPageMask) ≠ 0) :
    onIdlePageStep isIdle addr size pages infos acc i =
      (acc + pageShare addr size pages i) % 2 ^ 64 := by
  have hv : infos.getD i 0 ≠ 0 := by
    intro h
    rw [h] at hram
    simp [Nat.zero_and] at hram
  unfold onIdlePageStep pageShare
  rw [if_neg hv, if_neg hram, if_neg hphys, if_neg hid1, if_pos hid0]

theorem foldl_range_add_mod (n : Nat) (B : Nat → Nat → Nat) (f : Nat → Nat)
    (hB : ∀ acc i, i < n → B acc i = (acc + f i) % 2 ^ 64)
    (hbound : ∑ i ∈ Finset.range n, f i < 2 ^ 64) :
    (List.range n).foldl B 0 = ∑ i ∈ Finset.range n, f i := by
  induction n with
  | zero => simp
  | succ m ih =>
    have hmono : ∑ i ∈ Finset.range m, f i ≤
        ∑ i ∈ Finset.range (m + 1), f i :=
      Finset.sum_le_sum_of_subset (Finset.range_subset.mpr (Nat.le_succ m))
    rw [List.range_succ, List.foldl_append, List.foldl_cons, List.foldl_nil]
    rw [ih (fun acc i hi => hB acc i (Nat.lt_succ_of_lt hi))
      (Nat.lt_of_le_of_lt hmono hbound)]
    rw [hB _ m (Nat.lt_succ_self m), ← Finset.sum_range_succ]
    exact Nat.mod_eq_of_lt hbound

theorem first_share_of_single_page (addr size : Nat)
    (h1 : pageCount addr size = 1)
    (haddr : addr < 2 ^ 64 - kPageSize) (hov : addr + size < 2 ^ 64) :
    GetFirstPageShare addr size = size := by
  simp only [pageCount, kPageSize] at h1
  simp only [kPageSize] at haddr
  simp only [GetFirstPageShare, kPageSize]
  split_ifs at h1 ⊢ <;> omega

theorem share_sum_eq_size (addr size m : Nat)
    (hpc : pageCount addr size = m + 2)
    (haddr : addr < 2 ^ 64 - kPageSize) (hov : addr + size < 2 ^ 64) :
    GetFirstPageShare addr size + m * kPageSize + GetLastPageShare addr size
      = size := by
  simp only [pageCount, kPageSize] at hpc
  simp only [kPageSize] at haddr
  simp only [GetFirstPageShare, GetLastPageShare, kPageSize]
  split_ifs at hpc ⊢ <;> omega

theorem sum_pageShare (addr size pages : Nat)
    (hpc : pageCount addr size = pages) (hp : 0 < pages)
    (haddr : addr < 2 ^ 64 - kPageSize) (hov : addr + size < 2 ^ 64) :
    ∑ i ∈ Finset.range pages, pageShare addr size pages i = size := by
  match pages, hp with
  | 1, _ =>
    rw [Finset.sum_range_one]
    unfold pageShare
    rw [if_pos rfl, first_share_of_single_page addr size hpc haddr hov]
  | (m + 2), _ =>
    rw [Finset.sum_range_succ, Finset.sum_range_succ']
    have hmid : ∀ i, i < m →
        pageShare addr size (m + 2) (i + 1) = kPageSize := by
      intro i hi
      unfold pageShare
      rw [if_neg (by omega), if_neg (by omega)]
    rw [Finset.sum_congr rfl (fun i hi => hmid i (Finset.mem_range.mp hi))]
    have hlast : pageShare addr size (m + 2) (m + 1) =
        GetLastPageShare addr size := by
      unfold pageShare
      rw [if_neg (by omega), if_pos (by omega)]
    have hfirst : pageShare addr size (m + 2) 0 =
        GetFirstPageShare addr size := by
      unfold pageShare
      rw [if_pos rfl]
    rw [hlast, hfirst, Finset.sum_const, Finset.card_range, smul_eq_mul]
    have h := share_sum_eq_size addr size m hpc haddr hov
    simp only [kPageSize] at h ⊢
    omega

/-- C9, amended: under the additional bounds the wrap behaviour of the code
forces - `addr` below the last page of the 64-bit address space (so the
`uint64_t` computation of the first page's end does not wrap to 0) and
`size < 2^63` (so the `int64_t` accumulator can represent the result) -
when the pagemap read succeeds and every page overlapping the allocation is
in RAM, has a nonzero physical page number and is reported idle,
`OnIdlePage` returns exactly `size`: the first-page share, the interior
pages and the last-page share sum to the allocation size. -/
theorem C9_OnIdlePage_all_idle_returns_size (isIdle : Nat → Int)
    (addr size : Nat) (infos : List Nat)
    (hsize : 0 < size) (hov : addr + size < 2 ^ 64)
    (haddr : addr < 2 ^ 64 - kPageSize) (hsize63 : size < 2 ^ 63)
    (hlen : infos.length = pageCount addr size)
    (hall : ∀ i, i < pageCount addr size →
      infos.getD i 0 &&& kIsInRam ≠ 0 ∧
      infos.getD i 0 &&& kRamPhysicalPageMask ≠ 0 ∧
      isIdle (infos.getD i 0 &&& kRamPhysicalPageMask) ≠ -1 ∧
      isIdle (infos.getD i 0 &&& kRamPhysicalPageMask) ≠ 0) :
    OnIdlePage isIdle (some infos) addr size = (size : Int) := by
  have hp : 0 < pageCount addr size := by
    simp only [pageCount, kPageSize]
    split_ifs <;> omega
  have hsum : ∑ i ∈ Finset.range (pageCount addr size),
      pageShare addr size (pageCount addr size) i = size :=
    sum_pageShare addr size (pageCount addr size) rfl hp haddr hov
  simp only [OnIdlePage]
  rw [if_neg (by simp [hlen])]
  rw [foldl_range_add_mod (pageCount addr size)
    (onIdlePageStep isIdle addr size (pageCount addr size) infos)
    (pageShare addr size (pageCount addr size))
    (fun acc i hi => by
      obtain ⟨h1, h2, h3, h4⟩ := hall i hi
      exact onIdlePageStep_eq_add isIdle addr size (pageCount addr size)
        infos acc i h1 h2 h3 h4)
    (by rw [hsum]; omega)]
  rw [hsum]
  simp only [toInt64]
  rw [Nat.mod_eq_of_lt (by omega), if_pos hsize63]

/-- C9 witness: a 10000-byte allocation at address 100 spanning three idle
4-KiB pages is reported as 10000 bytes idle. -/
theorem C9_witness :
    0 < 10000 ∧
    OnIdlePage (fun _ => 1) (some (List.replicate 3 (2 ^ 63 + 1))) 100 10000
      = (10000 : Int) :=
  ⟨by decide,
   C9_OnIdlePage_all_idle_returns_size (fun _ => 1) 100 10000
     (List.replicate 3 (2 ^ 63 + 1)) (by decide) (by norm_num) (by decide)
     (by norm_num) (by decide) (by decide)⟩

/-- C9 counterexample: at `addr = 2^64 - 4096` (page-aligned, last page of
the address space) and `size = 100`, every hypothesis of the original claim
holds - nonzero size, `addr + size` does not overflow, the pagemap read
succeeds, the one overlapped page is in RAM with a nonzero physical page
number and idle - yet `OnIdlePage` returns 4096, not `size`: in
`GetFirstPageShare` the `uint64_t` expression `end = page_aligned_addr +
kPageSize` wraps to 0, the guard `end > addr + size` fails, and the
whole-page share is attributed. -/
theorem C9_counterexample :
    0 < 100 ∧
    cxAddr + 100 < 2 ^ 64 ∧
    cxInfos.length = pageCount cxAddr 100 ∧
    (∀ i, i < pageCount cxAddr 100 →
      cxInfos.getD i 0 &&& kIsInRam ≠ 0 ∧
      cxInfos.getD i 0 &&& kRamPhysicalPageMask ≠ 0 ∧
      (fun _ => (1 : Int)) (cxInfos.getD i 0 &&& kRamPhysicalPageMask) ≠ -1 ∧
      (fun _ => (1 : Int)) (cxInfos.getD i 0 &&& kRamPhysicalPageMask) ≠ 0) ∧
    GetFirstPageShare cxAddr 100 = 4096 ∧
    OnIdlePage (fun _ => 1) (some cxInfos) cxAddr 100 = 4096 ∧
    (4096 : Int) ≠ (100 : Int) := by
  refine ⟨by decide, by decide, by decide, by decide, by decide, ?_, by decide⟩
  decide

/-- C8: the claim that `MarkPageIdle` writes a word with exactly bit
`phys_page_nr % 64` set fails at `phys_page_nr = 31`: because the shifted
operand `1` has type `int`, `1 << 31` is `INT_MIN`, which sign-extends to a
`uint64_t` word with bits 31..63 all set (`2^64 - 2^31`), not `2^31`; and
for `phys_page_nr % 64 ≥ 32` the shift is undefined behaviour.  This
contradicts the bitmap layout documented in the function's own comment. -/
theorem C8_MarkPageIdle_bit31_bug :
    MarkPageIdle 31 = (8 * (31 / 64), some (2 ^ 64 - 2 ^ 31)) ∧
    (2 ^ 64 - 2 ^ 31 : Nat) ≠ 2 ^ 31 ∧
    shift1IntToUInt64 (32 % 64) = none := by
  refine ⟨rfl, by norm_num, rfl⟩

end Profiling

namespace StateSerialization

/-!
Embedding of `parseAppState` from `ui/src/common/state_serialization.ts`.
`APP_STATE_SCHEMA` and `SERIALIZED_STATE_VERSION` live in
`ui/src/public/state_serialization_schema.ts`, outside the fragment, so the
schema parse is an oracle value (the outcome of `safeParse` on the input)
and the expected version is a parameter.
-/

/-- The fields of `SerializedAppState` that `parseAppState` inspects: only
`version`.  The remaining fields are schema-validated payload, irrelevant to
the parse decision, bundled as `payload`. -/
structure SerializedAppState where
  version : Nat
  payload : List Nat
  deriving DecidableEq, Repr

/-- Outcome of `APP_STATE_SCHEMA.safeParse(jsonDecodedObj)`: Zod returns
`{success: true, data}` or `{success: false, error}`. -/
inductive SafeParseResult where
  | success (data : SerializedAppState)
  | failure (error : String)
  deriving DecidableEq, Repr

/-- Result type `ParseStateResult` of `parseAppState`. -/
inductive ParseStateResult where
  | success (data : SerializedAppState)
  | failure (error : String)
  deriving DecidableEq, Repr

/-- The version-mismatch diagnostic built by `parseAppState`. -/
def mismatchMsg (actual expected : Nat) : String :=
  "SERIALIZED_STATE_VERSION mismatch (actual: " ++ toString actual ++
    ", expected: " ++ toString expected ++ ")"

/-- Function `parseAppState`, with the schema result supplied by the `safeParse`
oracle and the expected version `ver = SERIALIZED_STATE_VERSION`. -/
def parseAppState (ver : Nat) (parseRes : SafeParseResult) : ParseStateResult :=
  match parseRes with
  | .success d =>
    if d.version = ver then .success d
    else .failure (mismatchMsg d.version ver)
  | .failure e => .failure e

theorem mismatchMsg_ne_empty (actual expected : Nat) :
    mismatchMsg actual expected ≠ "" := by
  intro h
  have hlen := congrArg String.length h
  simp only [mismatchMsg, String.length_append] at hlen
  have h1 : ("SERIALIZED_STATE_VERSION mismatch (actual: ").length ≠ 0 := by
    decide
  have h2 : ("" : String).length = 0 := rfl
  omega

/-- C10: `parseAppState` succeeds (with the parsed data) iff the input
conforms to the schema and the parsed version equals
`SERIALIZED_STATE_VERSION`; otherwise it fails with a non-empty error
string, the version-mismatch message when only the version differs.  It is
a total function of the schema outcome: it never throws. -/
theorem C10_parseAppState_spec (ver : Nat) (res : SafeParseResult)
    (hschema : ∀ e, res = .failure e → e ≠ "") :
    (∀ d, parseAppState ver res = .success d ↔
      (res = .success d ∧ d.version = ver)) ∧
    (∀ d, res = .success d → d.version ≠ ver →
      parseAppState ver res = .failure (mismatchMsg d.version ver)) ∧
    (∀ e, parseAppState ver res = .failure e → e ≠ "") := by
  refine ⟨?_, ?_, ?_⟩
  · intro d
    cases res with
    | success d' =>
      by_cases h : d'.version = ver <;>
        simp_all [parseAppState] <;> rintro rfl <;> simp_all
    | failure e => simp [parseAppState]
  · rintro d rfl hne
    simp [parseAppState, hne]
  · intro e he
    cases res with
    | success d' =>
      by_cases h : d'.version = ver
      · simp [parseAppState, h] at he
      · simp [parseAppState, h] at he
        exact he ▸ mismatchMsg_ne_empty d'.version ver
    | failure e' =>
      simp [parseAppState] at he
      exact he ▸ hschema e' rfl

/-- C10 witness: a schema-conforming input with the expected version parses
successfully. -/
theorem C10_witness :
    parseAppState 1 (.success ⟨1, []⟩) = .success ⟨1, []⟩ :=
  ((C10_parseAppState_spec 1 (.success ⟨1, []⟩)
      (fun _ h => by cases h)).1 ⟨1, []⟩).mpr ⟨rfl, rfl⟩

end StateSerialization

namespace TraceRedaction

/-!
Modelled from the spec: the trace-redaction engine itself (Record Stream
Codec, Shared Context, Primitive framework, Trace Redactor orchestrator,
spec sections 2-7) is not part of the repository fragment under `src/` -
only its integration-test fixture header is.  The definitions below follow
the spec's words.  Process/thread identifiers and package names are
modelled as natural numbers; a trace file is a finite sequence of byte
values.
-/

/-- Modelled from the spec: a Record is "an opaque, typed, mutable unit
with sub-fields that can be read, cleared, or rewritten".  Following the
concrete scenario of spec section 8, the two record kinds the policies
touch are a process-tree record (a list of `(pid, package)` entries) and an
event record tagged with the pid it belongs to. -/
inductive Record where
  | processTree (entries : List (Nat × Nat))
  | event (pid : Nat) (payload : Nat)
  deriving DecidableEq, Repr

/-- Process/thread identifiers appearing in a record. -/
def Record.pids : Record → List Nat
  | .processTree entries => entries.map Prod.fst
  | .event pid _ => [pid]

/-- Package names appearing in a record. -/
def Record.packages : Record → List Nat
  | .processTree entries => entries.map Prod.snd
  | .event _ _ => []

/-- Inner wire encoding of a process-tree entry list: the flattened
`(pid, package)` pairs. -/
def encodePairs : List (Nat × Nat) → List Nat
  | [] => []
  | (p, k) :: es => p :: k :: encodePairs es

/-- Inverse of `encodePairs`; fails on an odd number of values. -/
def decodePairs : List Nat → Option (List (Nat × Nat))
  | [] => some []
  | p :: k :: rest => (decodePairs rest).map (fun es => (p, k) :: es)
  | [_] => none

/-- Modelled from the spec: the inner encoding of a single Record (tag
byte, then the payload of its concrete type). -/
def encodeRecord : Record → List Nat
  | .processTree entries => 0 :: encodePairs entries
  | .event pid payload => 1 :: pid :: [payload]

/-- Modelled from the spec: inner decoding of a single Record; `none` is a
malformed inner encoding. -/
def decodeRecord : List Nat → Option Record
  | 0 :: rest => (decodePairs rest).map Record.processTree
  | 1 :: pid :: [payload] => some (Record.event pid payload)
  | _ => none

/-- Modelled from the spec: the length-delimited framing of a Record in the
trace file: a two-byte big-endian length followed by the inner encoding. -/
def frameRecord (r : Record) : List Nat :=
  let p := encodeRecord r
  (p.length / 256) :: (p.length % 256) :: p

/-- Modelled from the spec: a Trace on durable storage is the concatenation
of the framed records, in order. -/
def encodeTrace (rs : List Record) : List Nat :=
  rs.foldr (fun r acc => frameRecord r ++ acc) []

/-- Modelled from the spec: the reading side of the Record Stream Codec.
Consumes the whole length-delimited stream; fails with a `DecodeError`
message when the framing or inner format is malformed (truncated length
prefix, length prefix exceeding the remaining bytes, invalid inner
encoding). -/
def parseTrace : List Nat → Except String (List Record)
  | [] => Except.ok []
  | [_] => Except.error "truncated record length prefix"
  | hi :: lo :: rest =>
    if hi < 256 ∧ lo < 256 then
      let len := 256 * hi + lo
      if len ≤ rest.length then
        match decodeRecord (rest.take len) with
        | none => Except.error "invalid inner record encoding"
        | some r =>
          match parseTrace (rest.drop len) with
          | Except.ok rs => Except.ok (r :: rs)
          | Except.error e => Except.error e
      else Except.error "record length prefix exceeds remaining bytes"
    else Except.error "malformed byte in record length prefix"
  termination_by bs => bs.length
  decreasing_by simp [List.length_drop]; omega

/-- Modelled from the spec: Status is "a terminal success/failure value
with a human-readable message", with the three failure kinds of the error
taxonomy of spec section 7. -/
inductive Status where
  | ok
  | ioError (msg : String)
  | decodeError (msg : String)
  | policyError (msg : String)
  deriving DecidableEq, Repr

/-- Whether a Status is a failure. -/
def Status.isFailure : Status → Bool
  | .ok => false
  | _ => true

/-- The human-readable diagnostic carried by a Status. -/
def Status.message : Status → String
  | .ok => ""
  | .ioError m => m
  | .decodeError m => m
  | .policyError m => m

/-- Modelled from the spec: the Shared Context - target-package resolution
(pre-seeded `targetPackage`, resolved identifier set `allowedPids`) and the
terminal Status. -/
structure Context where
  targetPackage : Nat
  allowedPids : List Nat
  status : Status
  deriving DecidableEq, Repr

/-- Modelled from the spec: the single settable terminal Status "that, once
set to a failure, is never overwritten" - first failure wins. -/
def Context.setStatus (ctx : Context) (s : Status) : Context :=
  if ctx.status.isFailure then ctx else { ctx with status := s }

/-- Modelled from the spec: a Collector reads a Record and may update the
Context, or report a failure Status. -/
abbrev Collector := Context → Record → Except Status Context

/-- Modelled from the spec: a Builder is a pure function of (Record,
Context) returning the Record unchanged, a rewritten Record, or `none` to
drop it - or reporting a failure Status. -/
abbrev Builder := Context → Record → Except Status (Option Record)

/-- Modelled from the spec: the Trace Redactor owns the ordered lists of
primitives (the `redactor_config`). -/
structure TraceRedactor where
  collectors : List Collector
  builders : List Builder

/-- Runs every Collector on one Record in registration order; the first
reported failure aborts the chain. -/
def runCollectors : List Collector → Context → Record → Except Status Context
  | [], ctx, _ => Except.ok ctx
  | c :: rest, ctx, r =>
    match c ctx r with
    | .ok ctx2 => runCollectors rest ctx2 r
    | .error s => Except.error s

/-- Modelled from the spec: the Collect phase streams every Record once
through all Collectors; a failure sets the Context's Status and halts the
phase immediately. -/
def collectPhase (cs : List Collector) (ctx : Context) :
    List Record → Context
  | [] => ctx
  | r :: rs =>
    match runCollectors cs ctx r with
    | .ok ctx2 => collectPhase cs ctx2 rs
    | .error s => ctx.setStatus s

/-- Threads a possibly-already-dropped Record through the remaining
Builders; each subsequent Builder sees the output of the previous one, and
a dropped Record stays dropped. -/
def runBuildersAux : List Builder → Context → Option Record →
    Except Status (Option Record)
  | [], _, cur => Except.ok cur
  | b :: rest, ctx, cur =>
    match cur with
    | none => runBuildersAux rest ctx none
    | some r2 =>
      match b ctx r2 with
      | .ok cur2 => runBuildersAux rest ctx cur2
      | .error s => Except.error s

/-- Runs every Builder on one Record in registration order. -/
def runBuilders (bs : List Builder) (ctx : Context) (r : Record) :
    Except Status (Option Record) :=
  runBuildersAux bs ctx (some r)

/-- Modelled from the spec: the Build phase streams every Record through
all Builders against the frozen Context, keeping survivors in input order;
the first Builder failure halts the phase. -/
def buildPhase (bs : List Builder) (ctx : Context) :
    List Record → Except Status (List Record)
  | [] => Except.ok []
  | r :: rs =>
    match runBuilders bs ctx r with
    | .error s => Except.error s
    | .ok none => buildPhase bs ctx rs
    | .ok (some r2) =>
      match buildPhase bs ctx rs with
      | .error s => Except.error s
      | .ok outs => Except.ok (r2 :: outs)

/-- Modelled from the spec: the invocation contract
`Redact(redactor_config, context, source, destination) -> Status`.  The
source is `none` when unreadable (`IoError`); the returned pair is the
terminal Status and, on success only, the bytes of the completed
destination trace. -/
def Redact (red : TraceRedactor) (ctx : Context) (src : Option (List Nat)) :
    Status × Option (List Nat) :=
  match src with
  | none => (Status.ioError "source unreadable", none)
  | some bytes =>
    match parseTrace bytes with
    | .error e => (Status.decodeError e, none)
    | .ok records =>
      let ctx2 := collectPhase red.collectors ctx records
      if ctx2.status.isFailure then (ctx2.status, none)
      else
        match buildPhase red.builders ctx2 records with
        | .error s => ((ctx2.setStatus s).status, none)
        | .ok outs => (Status.ok, some (encodeTrace outs))

/-- Modelled from the spec: the Collector of the core policy, resolving the
target package to the set of process identifiers registered to it in
process-tree records. -/
def findTargetPids : Collector := fun ctx r =>
  match r with
  | .processTree entries =>
    Except.ok { ctx with allowedPids :=
      ctx.allowedPids ++
        (entries.filter (fun e => e.2 == ctx.targetPackage)).map Prod.fst }
  | .event _ _ => Except.ok ctx

/-- Modelled from the spec: the Builder of the core policy - a process-tree
record retains only the target package's entries, an event record outside
the resolved identifier set is dropped. -/
def redactBuilder : Builder := fun ctx r =>
  match r with
  | .processTree entries =>
    Except.ok (some (.processTree
      (entries.filter (fun e => e.2 == ctx.targetPackage))))
  | .event pid payload =>
    Except.ok (if pid ∈ ctx.allowedPids then some (.event pid payload) else none)

/-- The redactor configuration of the core redaction policy. -/
def defaultRedactor : TraceRedactor :=
  ⟨[findTargetPids], [redactBuilder]⟩

/-- The resolved target-package identifier set of an input record stream:
the pids registered to the target package in its process-tree records, in
stream order. -/
def resolvedPids (target : Nat) : List Record → List Nat
  | [] => []
  | .processTree entries :: rs =>
    (entries.filter (fun e => e.2 == target)).map Prod.fst ++
      resolvedPids target rs
  | .event _ _ :: rs => resolvedPids target rs

/-- The integration fixture (`trace_redaction_integration_fixture.h`): a
temporary file system, a source path and a destination path. -/
structure Fixture where
  fs : String → Option (List Nat)
  src_trace : String
  dest_trace : String

/-- Function `ReadRawTrace`: the full byte contents of the file at `path`,
or an error status; no Codec involved. -/
def Fixture.ReadRawTrace (fx : Fixture) (path : String) :
    Except String (List Nat) :=
  match fx.fs path with
  | some bytes => Except.ok bytes
  | none => Except.error ("Failed to read trace: " ++ path)

/-- Function `LoadOriginal`. -/
def Fixture.LoadOriginal (fx : Fixture) : Except String (List Nat) :=
  fx.ReadRawTrace fx.src_trace

/-- Function `LoadRedacted`. -/
def Fixture.LoadRedacted (fx : Fixture) : Except String (List Nat) :=
  fx.ReadRawTrace fx.dest_trace

/-- Function `TraceRedactionIntegrationFixure::Redact`: runs the redactor
over the staged source file and, on success, stages the destination file;
returns the run's Status. -/
def Fixture.Redact (fx : Fixture) (red : TraceRedactor) (ctx : Context) :
    Status × Fixture :=
  match TraceRedaction.Redact red ctx (fx.fs fx.src_trace) with
  | (st, some dest) =>
    (st, { fx with fs := fun p =>
      if p = fx.dest_trace then some dest else fx.fs p })
  | (st, none) => (st, fx)

/-- The pure record transformation performed by `redactBuilder` for a given
Context. -/
def buildOne (ctx : Context) : Record → Option Record
  | .processTree entries =>
    some (.processTree (entries.filter (fun e => e.2 == ctx.targetPackage)))
  | .event pid payload =>
    if pid ∈ ctx.allowedPids then some (.event pid payload) else none

/-- The Build phase instrumented with the input index of each surviving
record, used to state order preservation. -/
def buildPhaseIndexed (bs : List Builder) (ctx : Context) :
    Nat → List Record → Except Status (List (Nat × Record))
  | _, [] => Except.ok []
  | i, r :: rs =>
    match runBuilders bs ctx r with
    | .error s => Except.error s
    | .ok none => buildPhaseIndexed bs ctx (i + 1) rs
    | .ok (some r2) =>
      match buildPhaseIndexed bs ctx (i + 1) rs with
      | .error s => Except.error s
      | .ok prs => Except.ok ((i, r2) :: prs)


/-- Sample trace of the spec's concrete scenario 1: a process tree naming
packages 10 (target) and 20 (other), and one event record for each. -/
def sampleRecords : List Record :=
  [.processTree [(1, 10), (2, 20)], .event 1 100, .event 2 200]

/-- A fresh context pre-seeded with target package 10. -/
def sampleContext : Context := ⟨10, [], Status.ok⟩


/-- A staged temporary directory holding the scenario-1 source trace. -/
def sampleFixture : Fixture :=
  ⟨fun p => if p = "src" then some (encodeTrace sampleRecords) else none,
    "src", "dest"⟩


theorem collectPhase_default (ctx : Context) (rs : List Record) :
    collectPhase [findTargetPids] ctx rs =
      { ctx with allowedPids :=
          ctx.allowedPids ++ resolvedPids ctx.targetPackage rs } := by
  induction rs generalizing ctx with
  | nil => simp [collectPhase, resolvedPids]
  | cons r rs ih =>
    cases r with
    | processTree entries =>
      have hrun : runCollectors [findTargetPids] ctx (.processTree entries) =
          Except.ok { ctx with
            allowedPids := ctx.allowedPids ++
              (entries.filter (fun e => e.2 == ctx.targetPackage)).map Prod.fst } :=
        rfl
      rw [collectPhase, hrun]
      show collectPhase [findTargetPids] { ctx with
        allowedPids := ctx.allowedPids ++
          (entries.filter (fun e => e.2 == ctx.targetPackage)).map Prod.fst } rs = _
      rw [ih]
      simp [resolvedPids, List.append_assoc]
    | event pid payload =>
      have hrun : runCollectors [findTargetPids] ctx (.event pid payload) =
          Except.ok ctx := rfl
      rw [collectPhase, hrun]
      show collectPhase [findTargetPids] ctx rs = _
      rw [ih]
      simp [resolvedPids]

theorem runBuilders_default (ctx : Context) (r : Record) :
    runBuilders [redactBuilder] ctx r = Except.ok (buildOne ctx r) := by
  cases r with
  | processTree entries => rfl
  | event pid payload =>
    by_cases h : pid ∈ ctx.allowedPids <;>
      simp [runBuilders, runBuildersAux, redactBuilder, buildOne, h]

theorem buildPhase_default (ctx : Context) (rs : List Record) :
    buildPhase [redactBuilder] ctx rs =
      Except.ok (rs.filterMap (buildOne ctx)) := by
  induction rs with
  | nil => rfl
  | cons r rs ih =>
    rw [buildPhase, runBuilders_default]
    cases hb : buildOne ctx r with
    | none => rw [ih]; simp [List.filterMap_cons, hb]
    | some r2 => rw [ih]; simp [List.filterMap_cons, hb]

/-- Characterization of a run of the core-policy redactor on a parseable
source: it succeeds and writes exactly the built survivors. -/
theorem Redact_default (ctx : Context) (bytes : List Nat) (rs : List Record)
    (hst : ctx.status = Status.ok)
    (hparse : parseTrace bytes = Except.ok rs) :
    Redact defaultRedactor ctx (some bytes) =
      (Status.ok, some (encodeTrace (rs.filterMap
        (buildOne { ctx with allowedPids :=
          ctx.allowedPids ++ resolvedPids ctx.targetPackage rs })))) := by
  rw [Redact, hparse]
  simp only [defaultRedactor]
  rw [collectPhase_default]
  rw [if_neg (by simp [hst, Status.isFailure])]
  rw [buildPhase_default]

theorem decodePairs_encodePairs (es : List (Nat × Nat)) :
    decodePairs (encodePairs es) = some es := by
  induction es with
  | nil => rfl
  | cons e es ih =>
    obtain ⟨p, k⟩ := e
    simp [encodePairs, decodePairs, ih]

theorem decodeRecord_encodeRecord (r : Record) :
    decodeRecord (encodeRecord r) = some r := by
  cases r with
  | processTree entries =>
    simp [encodeRecord, decodeRecord, decodePairs_encodePairs]
  | event pid payload => rfl

theorem encodePairs_decodePairs (bs : List Nat) (es : List (Nat × Nat))
    (h : decodePairs bs = some es) : encodePairs es = bs := by
  induction es generalizing bs with
  | nil =>
    match bs with
    | [] => rfl
    | [x] => simp [decodePairs] at h
    | p :: k :: rest =>
      simp [decodePairs] at h
  | cons e es ih =>
    match bs with
    | [] => simp [decodePairs] at h
    | [x] => simp [decodePairs] at h
    | p :: k :: rest =>
      rw [show decodePairs (p :: k :: rest)
          = (decodePairs rest).map (fun es => (p, k) :: es) from rfl] at h
      cases hd : decodePairs rest with
      | none => rw [hd] at h; cases h
      | some es2 =>
        rw [hd] at h
        simp only [Option.map_some'] at h
        injection h with h
        injection h with h1 h2
        subst h2
        rw [← h1]
        simp [encodePairs, ih rest hd]

theorem encodeRecord_decodeRecord (bs : List Nat) (r : Record)
    (h : decodeRecord bs = some r) : encodeRecord r = bs := by
  match bs with
  | 0 :: rest =>
    simp [decodeRecord] at h
    obtain ⟨es, hes, hr⟩ := h
    simp [← hr, encodeRecord, encodePairs_decodePairs rest es hes]
  | 1 :: pid :: [payload] =>
    simp [decodeRecord] at h
    simp [← h, encodeRecord]
  | [] => simp [decodeRecord] at h
  | 1 :: [] => simp [decodeRecord] at h
  | 1 :: [_] => simp [decodeRecord] at h
  | 1 :: _ :: _ :: _ :: _ => simp [decodeRecord] at h
  | (n + 2) :: _ => simp [decodeRecord] at h

theorem parseTrace_frame (r : Record) (rest : List Nat)
    (hlt : (encodeRecord r).length < 65536) :
    parseTrace (frameRecord r ++ rest) =
      match parseTrace rest with
      | Except.ok rs => Except.ok (r :: rs)
      | Except.error e => Except.error e := by
  have hdiv : (encodeRecord r).length / 256 < 256 := by omega
  have hmod : (encodeRecord r).length % 256 < 256 := by omega
  have hlen : 256 * ((encodeRecord r).length / 256) +
      (encodeRecord r).length % 256 = (encodeRecord r).length := by omega
  show parseTrace ((encodeRecord r).length / 256 :: (encodeRecord r).length % 256
      :: (encodeRecord r ++ rest)) = _
  rw [parseTrace]
  rw [if_pos ⟨hdiv, hmod⟩]
  simp only [hlen]
  rw [if_pos (by simp)]
  rw [List.take_left' rfl, List.drop_left' rfl, decodeRecord_encodeRecord r]

theorem parseTrace_encodeTrace_append (rs : List Record) (extra : List Nat)
    (h : ∀ r ∈ rs, (encodeRecord r).length < 65536) :
    parseTrace (encodeTrace rs ++ extra) =
      match parseTrace extra with
      | Except.ok xs => Except.ok (rs ++ xs)
      | Except.error e => Except.error e := by
  induction rs with
  | nil =>
    show parseTrace extra = _
    cases parseTrace extra <;> rfl
  | cons r rs ih =>
    have : encodeTrace (r :: rs) ++ extra =
        frameRecord r ++ (encodeTrace rs ++ extra) := by
      simp [encodeTrace]
    rw [this, parseTrace_frame r _ (h r (List.mem_cons_self r rs)),
      ih (fun x hx => h x (List.mem_cons_of_mem r hx))]
    cases parseTrace extra <;> rfl

theorem parseTrace_encodeTrace (rs : List Record)
    (h : ∀ r ∈ rs, (encodeRecord r).length < 65536) :
    parseTrace (encodeTrace rs) = Except.ok rs := by
  have := parseTrace_encodeTrace_append rs [] h
  simp [encodeTrace] at this ⊢
  simpa [parseTrace] using this

theorem parseTrace_records_bounded (bytes : List Nat) :
    ∀ rs : List Record, parseTrace bytes = Except.ok rs →
      ∀ r ∈ rs, (encodeRecord r).length < 65536 := by
  induction bytes using parseTrace.induct with
  | case1 =>
    intro rs h
    rw [parseTrace] at h
    cases h
    intro r hr
    cases hr
  | case2 x =>
    intro rs h
    rw [parseTrace] at h
    cases h
  | case3 hi lo rest hok len hle hdec =>
    intro rs h
    rw [parseTrace] at h
    rw [if_pos hok] at h
    simp only at h
    rw [if_pos hle] at h
    rw [hdec] at h
    cases h
  | case4 hi lo rest hok len hle r0 hdec rs0 hrec ih =>
    intro rs h
    rw [parseTrace] at h
    rw [if_pos hok] at h
    simp only at h
    rw [if_pos hle] at h
    rw [hdec, hrec] at h
    cases h
    intro r hr
    rcases List.mem_cons.mp hr with h1 | h2
    · subst h1
      have hb : (rest.take (256 * hi + lo)).length = 256 * hi + lo := by
        simp [List.length_take]
        omega
      rw [encodeRecord_decodeRecord _ _ hdec, hb]
      obtain ⟨h1, h2⟩ := hok
      omega
    · exact ih rs0 hrec r h2
  | case5 hi lo rest hok len hle r0 hdec e hrec ih =>
    intro rs h
    rw [parseTrace] at h
    rw [if_pos hok] at h
    simp only at h
    rw [if_pos hle] at h
    rw [hdec, hrec] at h
    cases h
  | case6 hi lo rest hok len hle =>
    intro rs h
    rw [parseTrace] at h
    rw [if_pos hok] at h
    simp only at h
    rw [if_neg hle] at h
    cases h
  | case7 hi lo rest hok =>
    intro rs h
    rw [parseTrace] at h
    rw [if_neg hok] at h
    cases h

theorem encodePairs_length (es : List (Nat × Nat)) :
    (encodePairs es).length = 2 * es.length := by
  induction es with
  | nil => rfl
  | cons e es ih =>
    obtain ⟨p, k⟩ := e
    simp [encodePairs, ih]
    omega

theorem buildOne_length_le (ctx : Context) (r r2 : Record)
    (h : buildOne ctx r = some r2) :
    (encodeRecord r2).length ≤ (encodeRecord r).length := by
  cases r with
  | processTree entries =>
    simp [buildOne] at h
    rw [← h]
    simp [encodeRecord, encodePairs_length]
    have := List.length_filter_le (fun e => e.2 == ctx.targetPackage) entries
    omega
  | event pid payload =>
    simp [buildOne] at h
    rw [← h.2]

theorem mem_resolvedPids_of_entry (target : Nat) (rs : List Record)
    (entries : List (Nat × Nat)) (e : Nat × Nat)
    (hr : Record.processTree entries ∈ rs) (he : e ∈ entries)
    (ht : (e.2 == target) = true) :
    e.1 ∈ resolvedPids target rs := by
  induction rs with
  | nil => cases hr
  | cons r rs ih =>
    rcases List.mem_cons.mp hr with h1 | h2
    · subst h1
      rw [resolvedPids]
      exact List.mem_append_left _
        (List.mem_map.mpr ⟨e, List.mem_filter.mpr ⟨he, ht⟩, rfl⟩)
    · cases r with
      | processTree es2 =>
        rw [resolvedPids]
        exact List.mem_append_right _ (ih h2)
      | event p q =>
        rw [resolvedPids]
        exact ih h2

/-- C1: after a successful run of the core-policy redactor with a fresh
context, every record decodable from the destination carries only process
identifiers inside the resolved target-package identifier set and only the
target package name: nothing attributable to an outside process or thread
is emitted. -/
theorem C1_no_leakage (ctx : Context) (bytes dest : List Nat)
    (hst : ctx.status = Status.ok) (hinit : ctx.allowedPids = [])
    (hrun : Redact defaultRedactor ctx (some bytes) = (Status.ok, some dest)) :
    ∃ input outs, parseTrace bytes = Except.ok input ∧
      parseTrace dest = Except.ok outs ∧
      ∀ r ∈ outs,
        (∀ p ∈ r.pids, p ∈ resolvedPids ctx.targetPackage input) ∧
        (∀ k ∈ r.packages, k = ctx.targetPackage) := by
  cases hparse : parseTrace bytes with
  | error e =>
    rw [Redact, hparse] at hrun
    simp at hrun
  | ok input =>
    have hchar := Redact_default ctx bytes input hst hparse
    rw [hchar] at hrun
    simp only [Prod.mk.injEq, Option.some.injEq] at hrun
    obtain ⟨-, hdest⟩ := hrun
    refine ⟨input, input.filterMap (buildOne { ctx with allowedPids := ctx.allowedPids ++ resolvedPids ctx.targetPackage input }), rfl, ?_, ?_⟩
    · rw [← hdest]
      apply parseTrace_encodeTrace
      intro r hr
      obtain ⟨src, hsrc, hbuild⟩ := List.mem_filterMap.mp hr
      exact Nat.lt_of_le_of_lt (buildOne_length_le _ src r hbuild)
        (parseTrace_records_bounded bytes input hparse src hsrc)
    · intro r hr
      obtain ⟨src, hsrc, hbuild⟩ := List.mem_filterMap.mp hr
      cases src with
      | processTree entries =>
        simp only [buildOne, Option.some.injEq] at hbuild
        constructor
        · intro p hp
          rw [← hbuild] at hp
          simp only [Record.pids] at hp
          obtain ⟨e, hef, hfst⟩ := List.mem_map.mp hp
          obtain ⟨he, ht⟩ := List.mem_filter.mp hef
          exact hfst ▸ mem_resolvedPids_of_entry ctx.targetPackage input
            entries e hsrc he ht
        · intro k hk
          rw [← hbuild] at hk
          simp only [Record.packages] at hk
          obtain ⟨e, hef, hsnd⟩ := List.mem_map.mp hk
          obtain ⟨he, ht⟩ := List.mem_filter.mp hef
          exact hsnd ▸ eq_of_beq ht
      | event pid payload =>
        simp only [buildOne] at hbuild
        split at hbuild
        · cases hbuild
          constructor
          · intro p hp
            simp only [Record.pids, List.mem_singleton] at hp
            subst hp
            rename_i hmem
            rw [hinit] at hmem
            simpa using hmem
          · intro k hk
            simp [Record.packages] at hk
        · cases hbuild

/-- C1 witness: running the scenario-1 trace through the redactor. -/
theorem C1_witness :
    ∃ input outs,
      parseTrace (encodeTrace sampleRecords) = Except.ok input ∧
      parseTrace [0, 3, 0, 1, 10, 0, 3, 1, 1, 100] = Except.ok outs ∧
      ∀ r ∈ outs,
        (∀ p ∈ r.pids, p ∈ resolvedPids sampleContext.targetPackage input) ∧
        (∀ k ∈ r.packages, k = sampleContext.targetPackage) :=
  C1_no_leakage sampleContext (encodeTrace sampleRecords)
    [0, 3, 0, 1, 10, 0, 3, 1, 1, 100] rfl rfl
    (by
      rw [Redact_default sampleContext (encodeTrace sampleRecords) sampleRecords rfl (parseTrace_encodeTrace sampleRecords (by decide))]
      rfl)

theorem buildPhase_eq_indexed (bs : List Builder) (ctx : Context)
    (rs : List Record) (i : Nat) :
    buildPhase bs ctx rs =
      (buildPhaseIndexed bs ctx i rs).map (List.map Prod.snd) := by
  induction rs generalizing i with
  | nil => rfl
  | cons r rs ih =>
    rw [buildPhase, buildPhaseIndexed]
    cases hr : runBuilders bs ctx r with
    | error s => rfl
    | ok o =>
      cases o with
      | none => exact ih (i + 1)
      | some r2 =>
        rw [ih (i + 1)]
        cases buildPhaseIndexed bs ctx (i + 1) rs with
        | error s => rfl
        | ok prs => rfl

theorem buildPhaseIndexed_spec (bs : List Builder) (ctx : Context)
    (rs : List Record) (i : Nat) (prs : List (Nat × Record))
    (h : buildPhaseIndexed bs ctx i rs = Except.ok prs) :
    List.Pairwise (fun a b => a.1 < b.1) prs ∧
    ∀ pr ∈ prs, i ≤ pr.1 ∧ ∃ r, rs[pr.1 - i]? = some r ∧
      runBuilders bs ctx r = Except.ok (some pr.2) := by
  induction rs generalizing i prs with
  | nil =>
    rw [buildPhaseIndexed] at h
    cases h
    exact ⟨List.Pairwise.nil, fun pr hpr => absurd hpr (List.not_mem_nil pr)⟩
  | cons r rs ih =>
    rw [buildPhaseIndexed] at h
    cases hr : runBuilders bs ctx r with
    | error s => rw [hr] at h; cases h
    | ok o =>
      rw [hr] at h
      cases o with
      | none =>
        obtain ⟨hpw, hmem⟩ := ih (i + 1) prs h
        refine ⟨hpw, fun pr hpr => ?_⟩
        obtain ⟨hle, r', hget, hbuild⟩ := hmem pr hpr
        refine ⟨by omega, r', ?_, hbuild⟩
        have : pr.1 - i = (pr.1 - (i + 1)) + 1 := by omega
        rw [this, List.getElem?_cons_succ]
        exact hget
      | some r2 =>
        cases hrec : buildPhaseIndexed bs ctx (i + 1) rs with
        | error s => rw [hrec] at h; cases h
        | ok prs0 =>
          rw [hrec] at h
          cases h
          obtain ⟨hpw, hmem⟩ := ih (i + 1) prs0 hrec
          constructor
          · exact List.Pairwise.cons
              (fun b hb => by
                have := (hmem b hb).1
                simpa using Nat.lt_of_lt_of_le (Nat.lt_succ_self i) this)
              hpw
          · intro pr hpr
            rcases List.mem_cons.mp hpr with h1 | h2
            · subst h1
              exact ⟨Nat.le_refl i, r, by simp, hr⟩
            · obtain ⟨hle, r', hget, hbuild⟩ := hmem pr h2
              refine ⟨by omega, r', ?_, hbuild⟩
              have : pr.1 - i = (pr.1 - (i + 1)) + 1 := by omega
              rw [this, List.getElem?_cons_succ]
              exact hget

/-- C2: the records a successful redaction run writes to the destination
are, in order, the Build-phase survivors of input records at strictly
increasing input positions: records may be dropped but never reordered. -/
theorem C2_order_preservation (red : TraceRedactor) (ctx : Context)
    (bytes dest : List Nat)
    (hrun : Redact red ctx (some bytes) = (Status.ok, some dest)) :
    ∃ (input : List Record) (prs : List (Nat × Record)),
      parseTrace bytes = Except.ok input ∧
      dest = encodeTrace (prs.map Prod.snd) ∧
      List.Pairwise (fun a b => a.1 < b.1) prs ∧
      ∀ pr ∈ prs, ∃ r, input[pr.1]? = some r ∧
        runBuilders red.builders (collectPhase red.collectors ctx input) r =
          Except.ok (some pr.2) := by
  cases hparse : parseTrace bytes with
  | error e =>
    rw [Redact, hparse] at hrun
    simp at hrun
  | ok input =>
    rw [Redact, hparse] at hrun
    simp only [] at hrun
    by_cases hfail :
        (collectPhase red.collectors ctx input).status.isFailure
    · rw [if_pos hfail] at hrun
      simp at hrun
    · rw [if_neg hfail] at hrun
      cases hbuild : buildPhase red.builders
          (collectPhase red.collectors ctx input) input with
      | error s => rw [hbuild] at hrun; simp at hrun
      | ok outs =>
        rw [hbuild] at hrun
        simp only [Prod.mk.injEq, Option.some.injEq] at hrun
        obtain ⟨-, hdest⟩ := hrun
        rw [buildPhase_eq_indexed red.builders _ input 0] at hbuild
        cases hidx : buildPhaseIndexed red.builders
            (collectPhase red.collectors ctx input) 0 input with
        | error s => rw [hidx] at hbuild; cases hbuild
        | ok prs =>
          rw [hidx] at hbuild
          simp only [Except.map, Except.ok.injEq] at hbuild
          obtain ⟨hpw, hmem⟩ := buildPhaseIndexed_spec red.builders
            (collectPhase red.collectors ctx input) input 0 prs hidx
          refine ⟨input, prs, rfl, by rw [← hdest, ← hbuild], hpw, ?_⟩
          intro pr hpr
          obtain ⟨-, r, hget, hbuild2⟩ := hmem pr hpr
          exact ⟨r, by simpa using hget, hbuild2⟩

/-- C2 witness: the scenario-1 run emits the survivors of input positions
0 and 1, in that order. -/
theorem C2_witness :
    ∃ (input : List Record) (prs : List (Nat × Record)),
      parseTrace (encodeTrace sampleRecords) = Except.ok input ∧
      [0, 3, 0, 1, 10, 0, 3, 1, 1, 100] = encodeTrace (prs.map Prod.snd) ∧
      List.Pairwise (fun a b => a.1 < b.1) prs ∧
      ∀ pr ∈ prs, ∃ r, input[pr.1]? = some r ∧
        runBuilders defaultRedactor.builders
          (collectPhase defaultRedactor.collectors sampleContext input) r =
            Except.ok (some pr.2) :=
  C2_order_preservation defaultRedactor sampleContext
    (encodeTrace sampleRecords) [0, 3, 0, 1, 10, 0, 3, 1, 1, 100]
    (by
      rw [Redact_default sampleContext (encodeTrace sampleRecords) sampleRecords rfl (parseTrace_encodeTrace sampleRecords (by decide))]
      rfl)

/-- C3: a redaction run fails closed on malformed input.  Whenever the
Codec reports a decode failure (truncated length prefix, length prefix
exceeding the remaining bytes, invalid inner encoding) the run terminates
with a `DecodeError` Status and produces no destination; in particular,
truncating the last record's length prefix of an otherwise valid trace
down to its first byte does so. -/
theorem C3_fail_closed (red : TraceRedactor) (ctx : Context)
    (rs : List Record) (r : Record)
    (hlen : ∀ x ∈ rs ++ [r], (encodeRecord x).length < 65536) :
    (∀ bytes e, parseTrace bytes = Except.error e →
      Redact red ctx (some bytes) = (Status.decodeError e, none)) ∧
    ∃ e, Redact red ctx
        (some (encodeTrace rs ++ [(encodeRecord r).length / 256])) =
      (Status.decodeError e, none) := by
  have hgen : ∀ bytes e, parseTrace bytes = Except.error e →
      Redact red ctx (some bytes) = (Status.decodeError e, none) := by
    intro bytes e hp
    rw [Redact, hp]
  refine ⟨hgen, "truncated record length prefix", hgen _ _ ?_⟩
  have hsingle : parseTrace [(encodeRecord r).length / 256] =
      Except.error "truncated record length prefix" := by
    rw [parseTrace]
  have hp := parseTrace_encodeTrace_append rs
    [(encodeRecord r).length / 256]
    (fun x hx => hlen x (List.mem_append_left _ hx))
  rw [hsingle] at hp
  exact hp

/-- C3 witness: trace of two framed event records with the second frame cut
back to the first byte of its length prefix. -/
theorem C3_witness :
    (∀ bytes e, parseTrace bytes = Except.error e →
      Redact defaultRedactor sampleContext (some bytes) =
        (Status.decodeError e, none)) ∧
    ∃ e, Redact defaultRedactor sampleContext
        (some (encodeTrace [Record.event 1 100] ++
          [(encodeRecord (Record.event 2 200)).length / 256])) =
      (Status.decodeError e, none) :=
  C3_fail_closed defaultRedactor sampleContext [Record.event 1 100]
    (Record.event 2 200) (by decide)

theorem status_eq_ok_of_not_failure (s : Status)
    (h : s.isFailure = false) : s = Status.ok := by
  cases s with
  | ok => rfl
  | ioError m => simp [Status.isFailure] at h
  | decodeError m => simp [Status.isFailure] at h
  | policyError m => simp [Status.isFailure] at h

/-- C4: the Context's terminal Status is first-failure-wins: once it is a
failure no later `setStatus` changes it; starting from `ok`, a sequence of
reported statuses ends at the first failure among them; and when the
Collect phase ends in failure the orchestrator returns that failure without
running Build (no destination is produced). -/
theorem setStatus_foldl_failure (ctx : Context) (later : List Status)
    (hfail : ctx.status.isFailure) :
    (later.foldl Context.setStatus ctx).status = ctx.status := by
  induction later generalizing ctx with
  | nil => rfl
  | cons s rest ih =>
    rw [List.foldl_cons]
    rw [show Context.setStatus ctx s = ctx from if_pos hfail]
    exact ih ctx hfail

theorem C4_first_failure_wins (ctx : Context) (later : List Status)
    (red : TraceRedactor) (bytes : List Nat) (records : List Record) :
    (ctx.status.isFailure →
      (later.foldl Context.setStatus ctx).status = ctx.status) ∧
    (ctx.status = Status.ok →
      (later.foldl Context.setStatus ctx).status =
        (later.find? Status.isFailure).getD Status.ok) ∧
    (parseTrace bytes = Except.ok records →
      (collectPhase red.collectors ctx records).status.isFailure →
      Redact red ctx (some bytes) =
        ((collectPhase red.collectors ctx records).status, none)) := by
  refine ⟨setStatus_foldl_failure ctx later, ?_, ?_⟩
  · intro hok
    induction later generalizing ctx with
    | nil => simp [hok]
    | cons s rest ih =>
      rw [List.foldl_cons, List.find?_cons]
      have hset : Context.setStatus ctx s = { ctx with status := s } :=
        if_neg (by simp [hok, Status.isFailure])
      rw [hset]
      cases hf : s.isFailure with
      | true =>
        simp only [hf, Option.getD_some]
        exact setStatus_foldl_failure { ctx with status := s } rest
          (by simp [hf])
      | false =>
        simp only [hf]
        have := status_eq_ok_of_not_failure s hf
        subst this
        exact ih { ctx with status := Status.ok } rfl
  · intro hparse hfail
    rw [Redact, hparse]
    simp only []
    rw [if_pos hfail]

/-- C4 witness: a pre-existing `PolicyError` survives later reports; from
`ok`, the first failure of a report sequence becomes the terminal status;
a failed Collect phase aborts the run with that status and no output. -/
theorem C4_witness :
    (List.foldl Context.setStatus
        ⟨10, [], Status.policyError "boom"⟩
        [Status.ioError "x", Status.ok]).status =
      Status.policyError "boom" ∧
    (List.foldl Context.setStatus ⟨10, [], Status.ok⟩
        [Status.ok, Status.ioError "x", Status.policyError "y"]).status =
      Status.ioError "x" ∧
    Redact defaultRedactor ⟨10, [], Status.policyError "boom"⟩ (some []) =
      (Status.policyError "boom", none) :=
  ⟨(C4_first_failure_wins ⟨10, [], Status.policyError "boom"⟩
      [Status.ioError "x", Status.ok] defaultRedactor [] []).1 (by rfl),
   ((C4_first_failure_wins ⟨10, [], Status.ok⟩
      [Status.ok, Status.ioError "x", Status.policyError "y"]
      defaultRedactor [] []).2.1 rfl).trans (by rfl),
   (C4_first_failure_wins ⟨10, [], Status.policyError "boom"⟩ []
      defaultRedactor [] []).2.2 (by rw [parseTrace]) (by rfl)⟩

theorem parseTrace_error_ne_empty (bytes : List Nat) :
    ∀ e, parseTrace bytes = Except.error e → e ≠ "" := by
  induction bytes using parseTrace.induct with
  | case1 =>
    intro e h
    rw [parseTrace] at h
    cases h
  | case2 x =>
    intro e h
    rw [parseTrace] at h
    cases h
    decide
  | case3 hi lo rest hok len hle hdec =>
    intro e h
    rw [parseTrace] at h
    rw [if_pos hok] at h
    simp only at h
    rw [if_pos hle] at h
    rw [hdec] at h
    cases h
    decide
  | case4 hi lo rest hok len hle r0 hdec rs0 hrec ih =>
    intro e h
    rw [parseTrace] at h
    rw [if_pos hok] at h
    simp only at h
    rw [if_pos hle] at h
    rw [hdec, hrec] at h
    cases h
  | case5 hi lo rest hok len hle r0 hdec e0 hrec ih =>
    intro e h
    rw [parseTrace] at h
    rw [if_pos hok] at h
    simp only at h
    rw [if_pos hle] at h
    rw [hdec, hrec] at h
    cases h
    exact ih e0 hrec
  | case6 hi lo rest hok len hle =>
    intro e h
    rw [parseTrace] at h
    rw [if_pos hok] at h
    simp only at h
    rw [if_neg hle] at h
    cases h
    decide
  | case7 hi lo rest hok =>
    intro e h
    rw [parseTrace] at h
    rw [if_neg hok] at h
    cases h
    decide

theorem runCollectors_error_src (cs : List Collector) (ctx : Context)
    (r : Record) (s : Status)
    (h : runCollectors cs ctx r = Except.error s) :
    ∃ c ∈ cs, ∃ c2, c c2 r = Except.error s := by
  induction cs generalizing ctx with
  | nil => rw [runCollectors] at h; cases h
  | cons c rest ih =>
    rw [runCollectors] at h
    cases hc : c ctx r with
    | ok ctx2 =>
      rw [hc] at h
      obtain ⟨c2, hm, c3, he⟩ := ih ctx2 h
      exact ⟨c2, List.mem_cons_of_mem c hm, c3, he⟩
    | error s2 =>
      rw [hc] at h
      have h2 : (Except.error s2 : Except Status Context) = Except.error s := h
      injection h2 with h3
      subst h3
      exact ⟨c, List.mem_cons_self c rest, ctx, hc⟩

theorem runCollectors_ok_status (cs : List Collector) (ctx ctx2 : Context)
    (r : Record)
    (hpres : ∀ c ∈ cs, ∀ c3 r2 c4, c c3 r2 = Except.ok c4 →
      c4.status = c3.status)
    (h : runCollectors cs ctx r = Except.ok ctx2) :
    ctx2.status = ctx.status := by
  induction cs generalizing ctx with
  | nil =>
    rw [runCollectors] at h
    have h2 : (Except.ok ctx : Except Status Context) = Except.ok ctx2 := h
    injection h2 with h3
    rw [← h3]
  | cons c rest ih =>
    rw [runCollectors] at h
    cases hc : c ctx r with
    | ok ctx3 =>
      rw [hc] at h
      have := ih ctx3 (fun c2 hm => hpres c2 (List.mem_cons_of_mem c hm)) h
      rw [this, hpres c (List.mem_cons_self c rest) ctx r ctx3 hc]
    | error s2 =>
      rw [hc] at h
      cases h

theorem collectPhase_status (cs : List Collector) (ctx : Context)
    (rs : List Record)
    (hpres : ∀ c ∈ cs, ∀ c3 r2 c4, c c3 r2 = Except.ok c4 →
      c4.status = c3.status)
    (hok : ctx.status = Status.ok) :
    (collectPhase cs ctx rs).status = Status.ok ∨
    ∃ s, (∃ c ∈ cs, ∃ c2 r2, c c2 r2 = Except.error s) ∧
      (collectPhase cs ctx rs).status = s := by
  induction rs generalizing ctx with
  | nil => left; exact hok
  | cons r rs ih =>
    rw [collectPhase]
    cases hc : runCollectors cs ctx r with
    | ok ctx2 =>
      exact ih ctx2 ((runCollectors_ok_status cs ctx ctx2 r hpres hc).trans hok)
    | error s =>
      right
      refine ⟨s, ?_, ?_⟩
      · obtain ⟨c, hm, c2, he⟩ := runCollectors_error_src cs ctx r s hc
        exact ⟨c, hm, c2, r, he⟩
      · show (Context.setStatus ctx s).status = s
        rw [show Context.setStatus ctx s = { ctx with status := s } from
          if_neg (by simp [hok, Status.isFailure])]

theorem runBuildersAux_error_src (bs : List Builder) (ctx : Context)
    (cur : Option Record) (s : Status)
    (h : runBuildersAux bs ctx cur = Except.error s) :
    ∃ b ∈ bs, ∃ r2, b ctx r2 = Except.error s := by
  induction bs generalizing cur with
  | nil =>
    have h2 : (Except.ok cur : Except Status (Option Record)) =
        Except.error s := h
    cases h2
  | cons b rest ih =>
    cases cur with
    | none =>
      obtain ⟨b2, hm, r2, he⟩ := ih none h
      exact ⟨b2, List.mem_cons_of_mem b hm, r2, he⟩
    | some r2 =>
      simp only [runBuildersAux] at h
      cases hb : b ctx r2 with
      | ok cur2 =>
        rw [hb] at h
        obtain ⟨b2, hm, r3, he⟩ := ih cur2 h
        exact ⟨b2, List.mem_cons_of_mem b hm, r3, he⟩
      | error s2 =>
        rw [hb] at h
        have h2 : (Except.error s2 : Except Status (Option Record)) =
            Except.error s := h
        injection h2 with h3
        subst h3
        exact ⟨b, List.mem_cons_self b rest, r2, hb⟩

theorem buildPhase_error_src (bs : List Builder) (ctx : Context)
    (rs : List Record) (s : Status)
    (h : buildPhase bs ctx rs = Except.error s) :
    ∃ b ∈ bs, ∃ r2, b ctx r2 = Except.error s := by
  induction rs with
  | nil => rw [buildPhase] at h; cases h
  | cons r rs ih =>
    rw [buildPhase] at h
    cases hr : runBuilders bs ctx r with
    | error s2 =>
      rw [hr] at h
      have h2 : (Except.error s2 : Except Status (List Record)) =
          Except.error s := h
      injection h2 with h3
      subst h3
      exact runBuildersAux_error_src bs ctx (some r) s2 hr
    | ok o =>
      rw [hr] at h
      cases o with
      | none => exact ih h
      | some r2 =>
        cases hb : buildPhase bs ctx rs with
        | error s2 =>
          rw [hb] at h
          have h2 : (Except.error s2 : Except Status (List Record)) =
              Except.error s := h
          injection h2 with h3
          subst h3
          exact ih hb
        | ok outs =>
          rw [hb] at h
          cases h

theorem Redact_status_sound (red : TraceRedactor) (ctx : Context)
    (src : Option (List Nat))
    (hctx : ctx.status = Status.ok)
    (hpres : ∀ c ∈ red.collectors, ∀ c3 r2 c4, c c3 r2 = Except.ok c4 →
      c4.status = c3.status)
    (hcols : ∀ c ∈ red.collectors, ∀ c2 r2 s, c c2 r2 = Except.error s →
      s.isFailure = true ∧ s.message ≠ "")
    (hblds : ∀ b ∈ red.builders, ∀ c2 r2 s, b c2 r2 = Except.error s →
      s.isFailure = true ∧ s.message ≠ "") :
    ∀ st dest, Redact red ctx src = (st, dest) →
      st = Status.ok ∨ (st.isFailure = true ∧ st.message ≠ "") := by
  intro st dest h
  cases src with
  | none =>
    rw [Redact] at h
    injection h with h1 h2
    right
    rw [← h1]
    exact ⟨rfl, by decide⟩
  | some bytes =>
    rw [Redact] at h
    cases hp : parseTrace bytes with
    | error e =>
      rw [hp] at h
      injection h with h1 h2
      right
      rw [← h1]
      exact ⟨rfl, parseTrace_error_ne_empty bytes e hp⟩
    | ok records =>
      rw [hp] at h
      simp only [] at h
      by_cases hfail :
          (collectPhase red.collectors ctx records).status.isFailure
      · rw [if_pos hfail] at h
        injection h with h1 h2
        right
        rw [← h1]
        refine ⟨hfail, ?_⟩
        rcases collectPhase_status red.collectors ctx records hpres hctx with
          hok2 | ⟨s, ⟨c, hm, c2, r2, he⟩, hs⟩
        · rw [hok2] at hfail
          simp [Status.isFailure] at hfail
        · rw [hs]
          exact (hcols c hm c2 r2 s he).2
      · rw [if_neg hfail] at h
        cases hb : buildPhase red.builders
            (collectPhase red.collectors ctx records) records with
        | error s =>
          rw [hb] at h
          injection h with h1 h2
          have hset : ((collectPhase red.collectors ctx records).setStatus
              s).status = s := by
            rw [Context.setStatus, if_neg hfail]
          right
          rw [← h1, hset]
          obtain ⟨b, hm, r2, he⟩ :=
            buildPhase_error_src red.builders _ records s hb
          exact hblds b hm _ r2 s he
        | ok outs =>
          rw [hb] at h
          injection h with h1 h2
          left
          rw [← h1]

/-- C5: the harness-facing Redact operation returns a typed Status - `ok`,
or a failure carrying a non-empty human-readable diagnostic - as an
ordinary value; it is a total function and never throws across the
collaborator boundary. -/
theorem C5_redact_status_contract (fx : Fixture) (red : TraceRedactor)
    (ctx : Context)
    (hctx : ctx.status = Status.ok)
    (hpres : ∀ c ∈ red.collectors, ∀ c3 r2 c4, c c3 r2 = Except.ok c4 →
      c4.status = c3.status)
    (hcols : ∀ c ∈ red.collectors, ∀ c2 r2 s, c c2 r2 = Except.error s →
      s.isFailure = true ∧ s.message ≠ "")
    (hblds : ∀ b ∈ red.builders, ∀ c2 r2 s, b c2 r2 = Except.error s →
      s.isFailure = true ∧ s.message ≠ "") :
    ∃ st fx2, Fixture.Redact fx red ctx = (st, fx2) ∧
      (st = Status.ok ∨ (st.isFailure = true ∧ st.message ≠ "")) := by
  rcases he : TraceRedaction.Redact red ctx (fx.fs fx.src_trace) with
    ⟨st0, dest0⟩
  have hsound := Redact_status_sound red ctx (fx.fs fx.src_trace)
    hctx hpres hcols hblds st0 dest0 he
  cases dest0 with
  | none => exact ⟨st0, fx, by rw [Fixture.Redact, he], hsound⟩
  | some d =>
    exact ⟨st0, { fx with fs := fun p =>
      if p = fx.dest_trace then some d else fx.fs p },
      by rw [Fixture.Redact, he], hsound⟩

/-- C5 witness: the core-policy redactor run on the staged fixture yields a
typed Status. -/
theorem C5_witness :
    ∃ st fx2,
      Fixture.Redact sampleFixture defaultRedactor sampleContext =
        (st, fx2) ∧
      (st = Status.ok ∨ (st.isFailure = true ∧ st.message ≠ "")) :=
  C5_redact_status_contract sampleFixture defaultRedactor sampleContext rfl
    (by
      intro c hc c3 r2 c4 h
      have hc2 : c = findTargetPids := by
        have hm : c ∈ [findTargetPids] := hc
        simpa using hm
      subst hc2
      cases r2 <;> simp [findTargetPids] at h <;> rw [← h])
    (by
      intro c hc c2 r2 s h
      have hc2 : c = findTargetPids := by
        have hm : c ∈ [findTargetPids] := hc
        simpa using hm
      subst hc2
      cases r2 <;> simp [findTargetPids] at h)
    (by
      intro b hb c2 r2 s h
      have hb2 : b = redactBuilder := by
        have hm : b ∈ [redactBuilder] := hb
        simpa using hm
      subst hb2
      cases r2 <;> simp [redactBuilder] at h)

/-- C6: the read-back operations of the harness return the full byte
contents of the staged original, respectively of the produced destination,
or an error status; they read raw bytes and never invoke the Codec. -/
theorem C6_readback (fx : Fixture) :
    (∀ b, fx.fs fx.src_trace = some b →
      Fixture.LoadOriginal fx = Except.ok b) ∧
    (fx.fs fx.src_trace = none →
      ∃ e, Fixture.LoadOriginal fx = Except.error e) ∧
    (∀ b, fx.fs fx.dest_trace = some b →
      Fixture.LoadRedacted fx = Except.ok b) ∧
    (fx.fs fx.dest_trace = none →
      ∃ e, Fixture.LoadRedacted fx = Except.error e) ∧
    (∀ red ctx st dest fx2,
      TraceRedaction.Redact red ctx (fx.fs fx.src_trace) = (st, some dest) →
      Fixture.Redact fx red ctx = (st, fx2) →
      Fixture.LoadRedacted fx2 = Except.ok dest ∧
        (fx.src_trace ≠ fx.dest_trace →
          Fixture.LoadOriginal fx2 = Fixture.LoadOriginal fx)) := by
  refine ⟨?_, ?_, ?_, ?_, ?_⟩
  · intro b h
    rw [Fixture.LoadOriginal, Fixture.ReadRawTrace, h]
  · intro h
    exact ⟨_, by rw [Fixture.LoadOriginal, Fixture.ReadRawTrace, h]⟩
  · intro b h
    rw [Fixture.LoadRedacted, Fixture.ReadRawTrace, h]
  · intro h
    exact ⟨_, by rw [Fixture.LoadRedacted, Fixture.ReadRawTrace, h]⟩
  · intro red ctx st dest fx2 hengine hfix
    rw [Fixture.Redact, hengine] at hfix
    injection hfix with h1 h2
    subst h2
    constructor
    · rw [Fixture.LoadRedacted, Fixture.ReadRawTrace]
      simp
    · intro hne
      rw [Fixture.LoadOriginal, Fixture.ReadRawTrace]
      simp only []
      rw [if_neg hne]
      rw [Fixture.LoadOriginal, Fixture.ReadRawTrace]

/-- C6 witness: reading back the staged source succeeds with its exact
bytes; reading the not-yet-produced destination fails. -/
theorem C6_witness :
    Fixture.LoadOriginal sampleFixture =
      Except.ok (encodeTrace sampleRecords) ∧
    ∃ e, Fixture.LoadRedacted sampleFixture = Except.error e :=
  ⟨(C6_readback sampleFixture).1 (encodeTrace sampleRecords) rfl,
   (C6_readback sampleFixture).2.2.2.1 rfl⟩

theorem filter_target_idem (target : Nat) (es : List (Nat × Nat)) :
    (es.filter (fun e => e.2 == target)).filter (fun e => e.2 == target)
      = es.filter (fun e => e.2 == target) := by
  rw [List.filter_filter]
  apply List.filter_congr
  intro a _
  rw [Bool.and_self]

theorem buildOne_fixpoint (ctx2 : Context) (r r2 : Record)
    (h : buildOne ctx2 r = some r2) : buildOne ctx2 r2 = some r2 := by
  cases r with
  | processTree entries =>
    simp only [buildOne, Option.some.injEq] at h
    rw [← h]
    simp [buildOne, filter_target_idem]
  | event pid payload =>
    simp only [buildOne] at h
    by_cases hm : pid ∈ ctx2.allowedPids
    · rw [if_pos hm] at h
      injection h with h2
      rw [← h2]
      simp [buildOne, hm]
    · rw [if_neg hm] at h
      cases h

theorem filterMap_id_of_fix (f : Record → Option Record) (l : List Record)
    (h : ∀ x ∈ l, f x = some x) : l.filterMap f = l := by
  induction l with
  | nil => rfl
  | cons a l ih =>
    rw [List.filterMap_cons_some (h a (List.mem_cons_self a l))]
    rw [ih (fun x hx => h x (List.mem_cons_of_mem a hx))]

theorem resolvedPids_filterMap_buildOne (ctx2 : Context) (rs : List Record) :
    resolvedPids ctx2.targetPackage (rs.filterMap (buildOne ctx2)) =
      resolvedPids ctx2.targetPackage rs := by
  induction rs with
  | nil => rfl
  | cons r rs ih =>
    cases r with
    | processTree entries =>
      show ((entries.filter (fun e => e.2 == ctx2.targetPackage)).filter
          (fun e => e.2 == ctx2.targetPackage)).map Prod.fst ++
          resolvedPids ctx2.targetPackage (rs.filterMap (buildOne ctx2)) =
        (entries.filter (fun e => e.2 == ctx2.targetPackage)).map Prod.fst ++
          resolvedPids ctx2.targetPackage rs
      rw [filter_target_idem, ih]
    | event pid payload =>
      by_cases hm : pid ∈ ctx2.allowedPids
      · have hb : buildOne ctx2 (.event pid payload) =
            some (.event pid payload) := by simp [buildOne, hm]
        rw [List.filterMap_cons_some hb]
        exact ih
      · have hb : buildOne ctx2 (.event pid payload) = none := by
          simp [buildOne, hm]
        rw [List.filterMap_cons_none hb]
        exact ih

/-- C7: redaction is idempotent - running the core-policy redactor (same
target package, same primitive set, fresh context) on the destination of a
successful run reproduces that destination byte for byte. -/
theorem C7_idempotent (ctx : Context) (bytes dest : List Nat)
    (hst : ctx.status = Status.ok)
    (hrun : Redact defaultRedactor ctx (some bytes) = (Status.ok, some dest)) :
    Redact defaultRedactor ctx (some dest) = (Status.ok, some dest) := by
  cases hparse : parseTrace bytes with
  | error e =>
    rw [Redact, hparse] at hrun
    simp at hrun
  | ok rs =>
    have hchar := Redact_default ctx bytes rs hst hparse
    rw [hchar] at hrun
    simp only [Prod.mk.injEq, Option.some.injEq] at hrun
    obtain ⟨-, hdest⟩ := hrun
    have hbound : ∀ r ∈ rs.filterMap (buildOne { ctx with allowedPids := ctx.allowedPids ++ resolvedPids ctx.targetPackage rs }), (encodeRecord r).length < 65536 := by
      intro r hr
      obtain ⟨src, hsrc, hb⟩ := List.mem_filterMap.mp hr
      exact Nat.lt_of_le_of_lt (buildOne_length_le _ src r hb)
        (parseTrace_records_bounded bytes rs hparse src hsrc)
    have hparse2 : parseTrace dest = Except.ok (rs.filterMap (buildOne { ctx with allowedPids := ctx.allowedPids ++ resolvedPids ctx.targetPackage rs })) := by
      rw [← hdest]
      exact parseTrace_encodeTrace _ hbound
    have hchar2 := Redact_default ctx dest _ hst hparse2
    rw [hchar2]
    have hres : resolvedPids ctx.targetPackage (rs.filterMap (buildOne { ctx with allowedPids := ctx.allowedPids ++ resolvedPids ctx.targetPackage rs })) = resolvedPids ctx.targetPackage rs :=
      resolvedPids_filterMap_buildOne
        { ctx with allowedPids := ctx.allowedPids ++ resolvedPids ctx.targetPackage rs } rs
    rw [hres]
    have hfix : (rs.filterMap (buildOne { ctx with allowedPids := ctx.allowedPids ++ resolvedPids ctx.targetPackage rs })).filterMap (buildOne { ctx with allowedPids := ctx.allowedPids ++ resolvedPids ctx.targetPackage rs }) = rs.filterMap (buildOne { ctx with allowedPids := ctx.allowedPids ++ resolvedPids ctx.targetPackage rs }) := by
      apply filterMap_id_of_fix
      intro x hx
      obtain ⟨src, hsrc, hb⟩ := List.mem_filterMap.mp hx
      exact buildOne_fixpoint _ src x hb
    rw [hfix, hdest]

/-- C7 witness: redacting the already-redacted scenario-1 trace returns it
unchanged. -/
theorem C7_witness :
    Redact defaultRedactor sampleContext
      (some [0, 3, 0, 1, 10, 0, 3, 1, 1, 100]) =
    (Status.ok, some [0, 3, 0, 1, 10, 0, 3, 1, 1, 100]) :=
  C7_idempotent sampleContext (encodeTrace sampleRecords)
    [0, 3, 0, 1, 10, 0, 3, 1, 1, 100] rfl
    (by
      rw [Redact_default sampleContext (encodeTrace sampleRecords) sampleRecords rfl (parseTrace_encodeTrace sampleRecords (by decide))]
      rfl)

end TraceRedaction
